import Mathlib

/-!
# Verification of the krampuskart-ppo PPO core

Shallow embedding of the PPO experience buffer (`src/js/ppo/reward.js`,
class `ExperienceBuffer`) and of the actor-critic log-probability and
log-std handling (`src/js/ppo/actor-critic.js`, classes `ActorCritic` and
`PPOAgent`).  JavaScript numbers are modelled as exact rationals; the one
claim that is about IEEE `NaN` production (the empty bootstrap average) is
settled over a dedicated type `JNum` that carries `NaN` explicitly.
The `Math.random`-driven Fisher-Yates shuffle inside `getBatches` is
modelled nondeterministically: the shuffled index list is a parameter and
the theorems quantify over every permutation of the subsampled indices.
-/

/-- Modelled from the spec: the `average` helper is imported from
`../utils.js`, a file that is not among the sources; per spec section 4.2
("subtract the sample mean") it is the sample mean: the sum of the entries
divided by their number. -/
def average (xs : List ℚ) : ℚ := xs.sum / xs.length

/-- The sample variance computed inline in
`ExperienceBuffer._normalizeAdvantages`:
`this.advantages.reduce((a, b) => a + (b - mean) ** 2, 0) / this.advantages.length`
where `mean = average(this.advantages)`. -/
def variance (xs : List ℚ) : ℚ :=
  xs.foldl (fun a b => a + (b - average xs) ^ 2) 0 / xs.length

/-- `ExperienceBuffer._normalizeAdvantages`.  The source computes
`std = Math.sqrt(variance) + 1e-8` and maps `a => (a - mean) / std`; the
square root is not exactly representable over the rationals, so its value
is the parameter `s`: every theorem about this definition carries the
hypotheses `0 ≤ s` and `s ^ 2 = variance advs`, which characterise
`Math.sqrt(variance advs)` exactly.  The early return on an empty
advantage list is the source's `if (this.advantages.length === 0) return;`. -/
def normalizeAdvantages (s : ℚ) (advs : List ℚ) : List ℚ :=
  if advs.length = 0 then advs
  else
    let mean := average advs
    let std := s + 1 / 100000000
    advs.map fun a => (a - mean) / std

/-- STEP 1 of `ExperienceBuffer.computeReturnsAndAdvantages` (Monte-Carlo
returns): the loop `for (t = n-1; t >= 0; t--)` with accumulator
`mcReturn` initialised to `lastValue` and
`mcReturn = dones[t] ? rewards[t] : rewards[t] + gamma * mcReturn`,
storing `mcReturn` as `returns[t]`.  In this recursion the accumulator
entering step `t` is the head of the tail's returns (this is `returns[t+1]`),
or `lastValue` when the tail is empty (`t = n-1`).  `dones` is stored in the
JS buffer as `0`/`1` (written by `add` as `done ? 1 : 0`) and tested by
truthiness, which on `{0, 1}` coincides with `Bool`. -/
def computeReturns (gamma lastValue : ℚ) : List ℚ → List Bool → List ℚ
  | r :: rs, d :: ds =>
    let tail := computeReturns gamma lastValue rs ds
    (if d then r else r + gamma * tail.headD lastValue) :: tail
  | _, _ => []

/-- STEP 2 of `ExperienceBuffer.computeReturnsAndAdvantages` (GAE): the loop
`for (t = n-1; t >= 0; t--)` with
`nextValue = (t === n-1) ? lastValue : values[t+1]`,
`delta = rewards[t] + gamma * nextValue * (1 - dones[t]) - values[t]`,
`gae = delta + gamma * lambda * (1 - dones[t]) * gae` (initially `0`),
storing `gae` as `advantages[t]`.  The accumulator entering step `t` is the
head of the tail's advantages (`0` when the tail is empty), and `nextValue`
is the head of the remaining values (`lastValue` when it is empty, i.e. at
`t = n-1`; the buffer keeps all its lists the same length). -/
def computeAdvantages (gamma lam lastValue : ℚ) :
    List ℚ → List ℚ → List Bool → List ℚ
  | r :: rs, v :: vs, d :: ds =>
    let tail := computeAdvantages gamma lam lastValue rs vs ds
    let nextValue := vs.headD lastValue
    let dd : ℚ := if d then 1 else 0
    let delta := r + gamma * nextValue * (1 - dd) - v
    (delta + gamma * lam * (1 - dd) * tail.headD 0) :: tail
  | _, _, _ => []

/-- One stored transition batch produced by `ExperienceBuffer.getBatches`. -/
structure Batch where
  states : List (List ℚ)
  actions : List (List ℚ)
  returns : List ℚ
  advantages : List ℚ
  oldLogProbs : List ℚ
deriving DecidableEq

/-- The `ExperienceBuffer` of `src/js/ppo/reward.js`: six parallel per-step
lists plus the two derived fields, which are `null` (`none`) until
`computeReturnsAndAdvantages` stores them. -/
structure ExperienceBuffer where
  states : List (List ℚ)
  actions : List (List ℚ)
  rewards : List ℚ
  values : List ℚ
  logProbs : List ℚ
  dones : List Bool
  returns : Option (List ℚ)
  advantages : Option (List ℚ)
deriving DecidableEq

/-- `ExperienceBuffer.clear` (also the constructor, which just calls
`clear`): all six lists empty, `returns` and `advantages` reset to `null`. -/
def ExperienceBuffer.clear : ExperienceBuffer :=
  ⟨[], [], [], [], [], [], none, none⟩

/-- `get length()`: the number of stored states. -/
def ExperienceBuffer.length (b : ExperienceBuffer) : ℕ := b.states.length

/-- `ExperienceBuffer.add`: pushes one transition onto each parallel list
(`dones` stores `done ? 1 : 0`, modelled as the `Bool` itself).  There is
no validation of any argument; `returns` and `advantages` are untouched. -/
def ExperienceBuffer.add (b : ExperienceBuffer) (state action : List ℚ)
    (reward value logProb : ℚ) (done : Bool) : ExperienceBuffer :=
  { b with
    states := b.states ++ [state]
    actions := b.actions ++ [action]
    rewards := b.rewards ++ [reward]
    values := b.values ++ [value]
    logProbs := b.logProbs ++ [logProb]
    dones := b.dones ++ [done] }

/-- `ExperienceBuffer.computeReturnsAndAdvantages(lastValue, gamma, lambda)`:
stores the Monte-Carlo returns and the normalised GAE advantages.  The
parameter `s` stands for `Math.sqrt(variance)` inside the normalisation,
as explained at `normalizeAdvantages`.  The statistics that the source
additionally computes (`average` of returns, values and rewards) only feed
`console.log` and the `lastAvgMCReturn` diagnostic and are omitted. -/
def ExperienceBuffer.computeReturnsAndAdvantages (b : ExperienceBuffer)
    (s lastValue gamma lam : ℚ) : ExperienceBuffer :=
  { b with
    returns := some (computeReturns gamma lastValue b.rewards b.dones)
    advantages := some (normalizeAdvantages s
      (computeAdvantages gamma lam lastValue b.rewards b.values b.dones)) }

/-- The subsampling step of `ExperienceBuffer.getBatches`: when
`subsampleRatio > 1` the source pushes `i = 0, ratio, 2*ratio, ...` while
`i < n`, which is exactly the list of indices below `n` divisible by
`ratio`, in increasing order; otherwise it takes `0, ..., n-1`. -/
def subsampleIndices (n ratio : ℕ) : List ℕ :=
  if 1 < ratio then (List.range n).filter (fun i => i % ratio == 0)
  else List.range n

/-- The chunking loop of `getBatches`:
`for (start = 0; start < indices.length; start += batchSize)` slicing
`indices.slice(start, start + batchSize)`.  A `batchSize` of `0` makes the
JS loop spin forever; the claims only concern `batchSize ≥ 1`, and the `0`
case here returns `[]`. -/
def makeBatches : ℕ → List ℕ → List (List ℕ)
  | _, [] => []
  | 0, _ :: _ => []
  | b + 1, x :: xs =>
    (x :: xs).take (b + 1) :: makeBatches (b + 1) ((x :: xs).drop (b + 1))
termination_by _ l => l.length
decreasing_by simp; omega

/-- The tiny-batch filter of `getBatches`:
`if (batchIndices.length < batchSize / 2) continue;` — a chunk is kept
exactly when its length is not below `batchSize / 2` (JS `/` is exact
division, modelled over ℚ). -/
def keepBatch (batchSize : ℕ) (b : List ℕ) : Bool :=
  !decide ((b.length : ℚ) < (batchSize : ℚ) / 2)

/-- The list of index chunks `getBatches` turns into batches: the chunking
loop over the shuffled indices with the tiny-batch filter applied. -/
def batchIndexSets (batchSize : ℕ) (shuffled : List ℕ) : List (List ℕ) :=
  (makeBatches batchSize shuffled).filter (keepBatch batchSize)

/-- `ExperienceBuffer.getBatches(batchSize, subsampleRatio)`.  The source
subsamples (`subsampleIndices`), Fisher-Yates-shuffles with `Math.random`,
chunks, and maps each index chunk over the stored per-step lists.  The
shuffle is modelled nondeterministically: `shuffled` is the post-shuffle
index list, and the theorems quantify over every permutation of
`subsampleIndices`.  Accessing `this.returns[i]` or `this.advantages[i]`
while those fields are `null` throws a `TypeError` in JS, modelled as
`Except.error`; no access happens when no chunk survives the filter. -/
def ExperienceBuffer.getBatches (b : ExperienceBuffer) (batchSize : ℕ)
    (shuffled : List ℕ) : Except Unit (List Batch) :=
  let idxB := batchIndexSets batchSize shuffled
  if idxB.isEmpty then Except.ok []
  else
    match b.returns, b.advantages with
    | some rets, some advs =>
      Except.ok (idxB.map (fun bi =>
        { states := bi.map (fun i => b.states.getD i [])
          actions := bi.map (fun i => b.actions.getD i [])
          returns := bi.map (fun i => rets.getD i 0)
          advantages := bi.map (fun i => advs.getD i 0)
          oldLogProbs := bi.map (fun i => b.logProbs.getD i 0) }))
    | _, _ => Except.error ()

/-- `tf.clipByValue(x, lo, hi)`: clamp `x` into `[lo, hi]`. -/
def clipByValue (x lo hi : ℚ) : ℚ := min (max x lo) hi

/-- The log-std initialisation in the `ActorCritic` constructor:
`tf.variable(tf.fill([actionDim], -1.0))`. -/
def logStdInit (actionDim : ℕ) : List ℚ := List.replicate actionDim (-1)

/-- The clamp at the end of `PPOAgent._updateBatch`:
`logStd.assign(tf.clipByValue(logStd, -3, 1))`.  The optimizer step that
precedes it may have moved `logStd` arbitrarily, so the input vector is
arbitrary. -/
def clampLogStd (l : List ℚ) : List ℚ := l.map fun x => clipByValue x (-3) 1

/-- The per-dimension scalar log-probability accumulation in
`ActorCritic.act`: over `i < actionDim`, with `std = Math.exp(logStd[i])`
and `diff = action[i] - mean[i]`,
`logProb += -0.5 * (diff*diff / (std*std) + 2*logStd[i] + Math.log(2*PI))`.
`Math.exp` and the constant `Math.log(2 * Math.PI)` are transcendental;
they appear as the parameters `expf` and `log2pi`, shared with
`computeLogProb` below, which calls the very same functions. -/
def actLogProb (expf : ℚ → ℚ) (log2pi : ℚ) : List ℚ → List ℚ → List ℚ → ℚ
  | m :: ms, a :: acts, ls :: lss =>
    let std := expf ls
    let diff := a - m
    let term := -(1 / 2) * (diff * diff / (std * std) + 2 * ls + log2pi)
    term + actLogProb expf log2pi ms acts lss
  | _, _, _ => 0

/-- The batched tensor formula of `ActorCritic.computeLogProb`:
`std = exp(logStd)`, `variance = square(std)`, `diff = actions - means`,
per element `-0.5 * (square(diff) / variance + (2*logStd + log(2*PI)))`,
summed over the action dimension.  `expf` and `log2pi` are the same
abstractions as in `actLogProb`. -/
def computeLogProb (expf : ℚ → ℚ) (log2pi : ℚ)
    (means actions logStd : List ℚ) : ℚ :=
  (List.zipWith
    (fun (am : ℚ × ℚ) ls =>
      let std := expf ls
      let diff := am.1 - am.2
      let term := -(1 / 2) * (diff ^ 2 / std ^ 2 + (2 * ls + log2pi))
      term)
    (actions.zip means) logStd).sum

/-- The hypothesis of the perfect-value GAE claim, exactly as the spec
words it: `value[t] = reward[t] + gamma * value[t+1]` for every `t`, where
`value[n]` is the external bootstrap `lastValue`. -/
def perfectValues (gamma lastValue : ℚ) : List ℚ → List ℚ → Bool
  | r :: rs, v :: vs =>
    decide (v = r + gamma * vs.headD lastValue) && perfectValues gamma lastValue rs vs
  | [], [] => true
  | _, _ => false

/-- A JavaScript number for the NaN-producing paths: either an exact
(finite) value or `NaN`. -/
inductive JNum where
  | num : ℚ → JNum
  | nan : JNum
deriving DecidableEq

/-- JS `+` : `NaN` propagates through addition. -/
def jadd : JNum → JNum → JNum
  | JNum.num a, JNum.num b => JNum.num (a + b)
  | _, _ => JNum.nan

/-- JS `-` : `NaN` propagates through subtraction. -/
def jsub : JNum → JNum → JNum
  | JNum.num a, JNum.num b => JNum.num (a - b)
  | _, _ => JNum.nan

/-- JS `*` : `NaN` propagates through multiplication (also `0 * NaN = NaN`). -/
def jmul : JNum → JNum → JNum
  | JNum.num a, JNum.num b => JNum.num (a * b)
  | _, _ => JNum.nan

/-- JS `/` on the modelled numbers: `0 / 0 = NaN`.  A nonzero numerator
over zero yields a signed infinity in JS, which this model conflates with
`nan`; no claim exercises that case. -/
def jdiv : JNum → JNum → JNum
  | JNum.num a, JNum.num b => if b = 0 then JNum.nan else JNum.num (a / b)
  | _, _ => JNum.nan

/-- The bootstrap averaging at the top of `PPOAgent.update`:
`lastValues.reduce((a, b) => a + b, 0) / lastValues.length` (taken when
`lastValues` is an array).  There is no emptiness guard. -/
def averageLastValues (lastValues : List JNum) : JNum :=
  jdiv (lastValues.foldl jadd (JNum.num 0)) (JNum.num lastValues.length)

/-- `computeReturns` over JavaScript numbers (`JNum`), to track `NaN`
propagation from the bootstrap value; same recursion as `computeReturns`. -/
def computeReturnsJ (gamma lastValue : JNum) : List JNum → List Bool → List JNum
  | r :: rs, d :: ds =>
    let tail := computeReturnsJ gamma lastValue rs ds
    (if d then r else jadd r (jmul gamma (tail.headD lastValue))) :: tail
  | _, _ => []

/-- `computeAdvantages` over JavaScript numbers (`JNum`); same recursion as
`computeAdvantages`, with the source's grouping
`rewards[t] + (gamma * nextValue) * (1 - done) - values[t]` and
`delta + ((gamma * lambda) * (1 - done)) * gae`. -/
def computeAdvantagesJ (gamma lam lastValue : JNum) :
    List JNum → List JNum → List Bool → List JNum
  | r :: rs, v :: vs, d :: ds =>
    let tail := computeAdvantagesJ gamma lam lastValue rs vs ds
    let nextValue := vs.headD lastValue
    let dd : JNum := if d then JNum.num 1 else JNum.num 0
    let delta := jsub (jadd r (jmul (jmul gamma nextValue) (jsub (JNum.num 1) dd))) v
    jadd delta (jmul (jmul (jmul gamma lam) (jsub (JNum.num 1) dd)) (tail.headD (JNum.num 0))) :: tail
  | _, _, _ => []

/-- `CONFIG.PPO.INPUT_DIM` from `js/config.js`: the configured state
dimension (8 sensors + speed + angle to track). -/
def INPUT_DIM : ℕ := 10

/-! ## Helper lemmas -/

theorem headD_eq_getD {α : Type} (l : List α) (d : α) : l.headD d = l.getD 0 d := by
  cases l <;> rfl

theorem computeReturns_length (gamma lastValue : ℚ) :
    ∀ (rw : List ℚ) (ds : List Bool),
      (computeReturns gamma lastValue rw ds).length = min rw.length ds.length := by
  intro rw
  induction rw with
  | nil => intro ds; cases ds <;> simp [computeReturns]
  | cons r rs ih =>
    intro ds
    cases ds with
    | nil => simp [computeReturns]
    | cons d ds' => simp [computeReturns, ih, Nat.succ_min_succ]

theorem computeAdvantages_length (gamma lam lastValue : ℚ) :
    ∀ (rw vl : List ℚ) (ds : List Bool),
      (computeAdvantages gamma lam lastValue rw vl ds).length =
        min rw.length (min vl.length ds.length) := by
  intro rw
  induction rw with
  | nil => intro vl ds; cases vl <;> cases ds <;> simp [computeAdvantages]
  | cons r rs ih =>
    intro vl ds
    cases vl with
    | nil => cases ds <;> simp [computeAdvantages]
    | cons v vs =>
      cases ds with
      | nil => simp [computeAdvantages]
      | cons d ds' => simp [computeAdvantages, ih, Nat.succ_min_succ]

theorem getD_true_lt (l : List Bool) (k : ℕ) (h : l.getD k false = true) :
    k < l.length := by
  by_contra hk
  rw [List.getD_eq_default] at h
  · exact Bool.false_ne_true h
  · omega

/-! ## C7: log-std clamp invariant -/

/-- C7: every component of the log-std vector lies in `[-3, 1]` at
`ActorCritic` construction (it is `List.replicate actionDim (-1)`) and
after the clamp that ends every `PPOAgent._updateBatch` minibatch step,
whatever vector the preceding gradient step produced. -/
theorem C7_logstd_clamp_invariant :
    (∀ (actionDim : ℕ), ∀ c ∈ logStdInit actionDim, -3 ≤ c ∧ c ≤ 1) ∧
    (∀ (l : List ℚ), ∀ c ∈ clampLogStd l, -3 ≤ c ∧ c ≤ 1) := by
  constructor
  · intro actionDim c hc
    have hx : c = -1 := List.eq_of_mem_replicate hc
    constructor <;> rw [hx] <;> norm_num
  · intro l c hc
    rcases List.mem_map.mp hc with ⟨x, _, hx⟩
    subst hx
    unfold clipByValue
    constructor
    · exact le_min (le_max_right x (-3)) (by norm_num)
    · exact min_le_right _ 1

theorem C7_logstd_clamp_invariant_witness :
    -3 ≤ (-1 : ℚ) ∧ (-1 : ℚ) ≤ 1 :=
  C7_logstd_clamp_invariant.1 1 (-1) (by simp [logStdInit])

/-! ## C8: no validation of malformed state vectors in add/store -/

/-- C8 counterexample: `ExperienceBuffer.add` (the body of `PPOAgent.store`)
happily appends a transition whose state vector has length 3 rather than
the configured `INPUT_DIM = 10`; the malformed state ends up stored in the
buffer and the buffer grows, refuting the claim that `store`/`add` does
not append a transition with a malformed state vector. -/
theorem C8_counterexample :
    (ExperienceBuffer.clear.add [1, 2, 3] [0] 0 0 0 false).states = [[1, 2, 3]] ∧
    (ExperienceBuffer.clear.add [1, 2, 3] [0] 0 0 0 false).length = 1 ∧
    ([1, 2, 3] : List ℚ).length ≠ INPUT_DIM := by
  refine ⟨rfl, rfl, ?_⟩
  simp [INPUT_DIM]

/-- C8 (amended): `ExperienceBuffer.add` — and therefore `PPOAgent.store`,
which just forwards to it — performs no shape validation at all: every
call appends the transition and grows the buffer by one, whatever the
length of the state vector (spec section 4.2: "no validation beyond
type/shape (caller's responsibility)").  The fail-fast rejection of a
wrong-dimension state in `act` happens inside the external tf.js library
(`predict` on a mis-shaped tensor), not in repository code. -/
theorem C8_add_no_validation (b : ExperienceBuffer) (state action : List ℚ)
    (reward value logProb : ℚ) (done : Bool) :
    (b.add state action reward value logProb done).states = b.states ++ [state] ∧
    (b.add state action reward value logProb done).length = b.length + 1 ∧
    (b.add state action reward value logProb done).returns = b.returns ∧
    (b.add state action reward value logProb done).advantages = b.advantages := by
  refine ⟨rfl, ?_, rfl, rfl⟩
  simp [ExperienceBuffer.add, ExperienceBuffer.length]

/-! ## C3: act's scalar log-prob loop agrees with computeLogProb -/

/-- C3: with `Math.exp` and `Math.log(2π)` abstracted as `expf` and
`log2pi` (both source functions call the identical JS expressions), the
scalar per-dimension Gaussian log-density loop of `ActorCritic.act` and
the batched tensor formula of `ActorCritic.computeLogProb` compute the
same function of the mean vector, the stored (clipped) action and the
log-std vector; hence the importance ratio
`exp(newLogProb - oldLogProb)` is `exp 0 = 1`, and at ratio `1` the
clipped surrogate `clipByValue ratio (1-ε) (1+ε) * advantage` coincides
with the unclipped `ratio * advantage` for every `ε ≥ 0`. -/
theorem C3_logprob_equivalence (expf : ℚ → ℚ) (log2pi : ℚ)
    (means actions logStd : List ℚ)
    (h1 : actions.length = means.length) (h2 : logStd.length = means.length) :
    actLogProb expf log2pi means actions logStd =
      computeLogProb expf log2pi means actions logStd ∧
    (expf 0 = 1 →
      expf (computeLogProb expf log2pi means actions logStd -
        actLogProb expf log2pi means actions logStd) = 1) ∧
    (∀ eps adv : ℚ, 0 ≤ eps →
      clipByValue 1 (1 - eps) (1 + eps) * adv = 1 * adv) := by
  have key : ∀ (ms acts lss : List ℚ), acts.length = ms.length →
      lss.length = ms.length →
      actLogProb expf log2pi ms acts lss = computeLogProb expf log2pi ms acts lss := by
    intro ms
    induction ms with
    | nil =>
      intro acts lss ha hl
      rw [List.length_nil, List.length_eq_zero] at ha hl
      subst ha; subst hl
      rfl
    | cons m ms' ih =>
      intro acts lss ha hl
      cases acts with
      | nil => simp at ha
      | cons a acts' =>
        cases lss with
        | nil => simp at hl
        | cons ls lss' =>
          simp only [List.length_cons, Nat.add_right_cancel_iff] at ha hl
          have htail := ih acts' lss' ha hl
          simp only [actLogProb, computeLogProb, List.zip_cons_cons,
            List.zipWith_cons_cons, List.sum_cons] at htail ⊢
          rw [htail]
          ring
  refine ⟨key means actions logStd h1 h2, ?_, ?_⟩
  · intro hexp
    rw [key means actions logStd h1 h2, sub_self]
    exact hexp
  · intro eps adv heps
    have h1e : (1 : ℚ) - eps ≤ 1 := by linarith
    have h2e : (1 : ℚ) ≤ 1 + eps := by linarith
    unfold clipByValue
    rw [max_eq_left h1e, min_eq_left h2e]

theorem C3_logprob_equivalence_witness :
    actLogProb (fun x => x + 1) 2 [1, 2] [0, 1] [1, 3] =
      computeLogProb (fun x => x + 1) 2 [1, 2] [0, 1] [1, 3] :=
  (C3_logprob_equivalence (fun x => x + 1) 2 [1, 2] [0, 1] [1, 3] rfl rfl).1

/-! ## C2: perfect value function gives all-zero pre-normalization GAE -/

/-- C2: on a buffer with no done flag set whose stored values satisfy
`value[t] = reward[t] + gamma * value[t+1]` exactly for every `t` (with
`value[n]` the external bootstrap), the GAE pass of
`computeReturnsAndAdvantages` produces only zero advantages before the
normalization step, for every `gamma` and `lambda`. -/
theorem C2_gae_zero_on_perfect_value (gamma lam lastValue : ℚ)
    (rewards values : List ℚ) (dones : List Bool)
    (hlv : values.length = rewards.length)
    (hld : dones.length = rewards.length)
    (hnodone : ∀ d ∈ dones, d = false)
    (hpv : perfectValues gamma lastValue rewards values = true) :
    computeAdvantages gamma lam lastValue rewards values dones =
      List.replicate rewards.length 0 := by
  induction rewards generalizing values dones with
  | nil =>
    rw [List.length_nil, List.length_eq_zero] at hlv hld
    subst hlv; subst hld
    rfl
  | cons r rs ih =>
    cases values with
    | nil => simp at hlv
    | cons v vs =>
      cases dones with
      | nil => simp at hld
      | cons d ds =>
        simp only [List.length_cons, Nat.add_right_cancel_iff] at hlv hld
        have hd : d = false := hnodone d (List.mem_cons_self d ds)
        have hds : ∀ x ∈ ds, x = false := fun x hx => hnodone x (List.mem_cons_of_mem d hx)
        simp only [perfectValues, Bool.and_eq_true, decide_eq_true_eq] at hpv
        have htail := ih vs ds hlv hld hds hpv.2
        have hzero : (List.replicate rs.length (0 : ℚ)).headD 0 = 0 := by
          cases rs.length <;> simp [List.replicate_succ]
        simp only [computeAdvantages, htail, hd, List.length_cons, List.replicate_succ,
          List.cons.injEq, Bool.false_eq_true, if_false, hzero]
        refine ⟨?_, trivial⟩
        rw [hpv.1]
        ring

theorem C2_gae_zero_on_perfect_value_witness :
    computeAdvantages (1/2) (9/10) 2 [1, 1] [2, 2] [false, false] =
      List.replicate 2 0 :=
  C2_gae_zero_on_perfect_value (1/2) (9/10) 2 [1, 1] [2, 2] [false, false]
    rfl rfl (by simp) (by norm_num [perfectValues])

/-! ## C1: Monte-Carlo return recursion -/

theorem computeReturns_getD_rec (gamma lastValue : ℚ) :
    ∀ (rw : List ℚ) (ds : List Bool), ds.length = rw.length →
    ∀ t, t < rw.length →
      (computeReturns gamma lastValue rw ds).getD t 0 =
        (if ds.getD t false then rw.getD t 0
         else rw.getD t 0 +
           gamma * (computeReturns gamma lastValue rw ds).getD (t + 1) lastValue) := by
  intro rw
  induction rw with
  | nil => intro ds h t ht; simp at ht
  | cons r rs ih =>
    intro ds h t ht
    cases ds with
    | nil => simp at h
    | cons d ds' =>
      simp only [List.length_cons, Nat.add_right_cancel_iff] at h
      cases t with
      | zero =>
        simp only [computeReturns, List.getD_cons_zero, List.getD_cons_succ, headD_eq_getD]
      | succ t' =>
        simp only [computeReturns, List.getD_cons_succ]
        exact ih ds' h t' (by simpa using ht)

/-- C1: for every buffer contents, `computeReturnsAndAdvantages` stores
Monte-Carlo returns obeying the claimed backward recursion — the
accumulator starts at the bootstrap `lastValue`, is reset to the raw
reward where `done` is set, and is otherwise `reward + gamma * acc`, the
accumulator being stored at each index — and on the spec's synthetic
3-step episode (`rewards [1, 2, 3]`, `done [false, false, true]`,
`gamma = 1/2`) the stored returns are `[2.75, 3.5, 3]` for every
bootstrap value. -/
theorem C1_monteCarlo_returns_recursion (gamma lastValue : ℚ)
    (b : ExperienceBuffer) (s lam : ℚ)
    (hlen : b.dones.length = b.rewards.length) :
    (b.computeReturnsAndAdvantages s lastValue gamma lam).returns =
      some (computeReturns gamma lastValue b.rewards b.dones) ∧
    (computeReturns gamma lastValue b.rewards b.dones).length = b.rewards.length ∧
    (∀ t, t < b.rewards.length →
      (computeReturns gamma lastValue b.rewards b.dones).getD t 0 =
        (if b.dones.getD t false then b.rewards.getD t 0
         else b.rewards.getD t 0 + gamma *
           (if t + 1 < b.rewards.length
            then (computeReturns gamma lastValue b.rewards b.dones).getD (t + 1) 0
            else lastValue))) ∧
    (∀ lv : ℚ, computeReturns (1/2) lv [1, 2, 3] [false, false, true] = [2.75, 3.5, 3]) := by
  have hL : (computeReturns gamma lastValue b.rewards b.dones).length = b.rewards.length := by
    rw [computeReturns_length, hlen, min_self]
  refine ⟨rfl, hL, ?_, ?_⟩
  · intro t ht
    rw [computeReturns_getD_rec gamma lastValue b.rewards b.dones hlen t ht]
    by_cases hd : b.dones.getD t false
    · rw [if_pos hd, if_pos hd]
    · rw [if_neg hd, if_neg hd]
      by_cases h2 : t + 1 < b.rewards.length
      · rw [if_pos h2,
          List.getD_eq_getElem (computeReturns gamma lastValue b.rewards b.dones) lastValue
            (by rw [hL]; exact h2),
          List.getD_eq_getElem (computeReturns gamma lastValue b.rewards b.dones) 0
            (by rw [hL]; exact h2)]
      · rw [if_neg h2,
          List.getD_eq_default (computeReturns gamma lastValue b.rewards b.dones) lastValue
            (by rw [hL]; omega)]
  · intro lv
    norm_num [computeReturns]

theorem C1_monteCarlo_returns_recursion_witness :
    computeReturns (1/2) 7 [1, 2, 3] [false, false, true] = [2.75, 3.5, 3] :=
  (C1_monteCarlo_returns_recursion (1/2) 7
    ⟨[], [], [1, 2, 3], [], [], [false, false, true], none, none⟩ 0 0 rfl).2.2.2 7

/-! ## C9: empty bootstrap list gives 0/0 = NaN -/

theorem jadd_nan_right (x : JNum) : jadd x JNum.nan = JNum.nan := by
  cases x <;> rfl

theorem jmul_nan_right (x : JNum) : jmul x JNum.nan = JNum.nan := by
  cases x <;> rfl

theorem jsub_nan_left (x : JNum) : jsub JNum.nan x = JNum.nan := by
  cases x <;> rfl

theorem jsub_nan_right (x : JNum) : jsub x JNum.nan = JNum.nan := by
  cases x <;> rfl

theorem jmul_nan_left (x : JNum) : jmul JNum.nan x = JNum.nan := by
  cases x <;> rfl

theorem jadd_nan_left (x : JNum) : jadd JNum.nan x = JNum.nan := by
  cases x <;> rfl

theorem averageLastValues_nil : averageLastValues [] = JNum.nan := by
  simp [averageLastValues, jdiv]

/-- C9 counterexample: the claim says that with an empty `lastValues`
array *every* computed return becomes NaN on every non-empty buffer; but
on the one-step buffer `rewards = [5]`, `done = [true]` the done-reset
discards the NaN accumulator and stores the finite raw reward `5`. -/
theorem C9_counterexample :
    averageLastValues [] = JNum.nan ∧
    computeReturnsJ (JNum.num (995/1000)) (averageLastValues [])
      [JNum.num 5] [true] = [JNum.num 5] ∧
    JNum.num 5 ≠ JNum.nan := by
  refine ⟨averageLastValues_nil, ?_, by simp⟩
  simp [computeReturnsJ]

theorem computeAdvantagesJ_nan (gamma lam : JNum) :
    ∀ (rw vl : List JNum) (ds : List Bool),
      vl.length = rw.length → ds.length = rw.length →
      computeAdvantagesJ gamma lam JNum.nan rw vl ds =
        List.replicate rw.length JNum.nan := by
  intro rw
  induction rw with
  | nil =>
    intro vl ds hlv hld
    rw [List.length_nil, List.length_eq_zero] at hlv hld
    subst hlv; subst hld
    rfl
  | cons r rs ih =>
    intro vl ds hlv hld
    cases vl with
    | nil => simp at hlv
    | cons v vs =>
      cases ds with
      | nil => simp at hld
      | cons d ds' =>
        simp only [List.length_cons, Nat.add_right_cancel_iff] at hlv hld
        have htail := ih vs ds' hlv hld
        simp only [computeAdvantagesJ, htail, List.length_cons, List.replicate_succ,
          List.cons.injEq]
        refine ⟨?_, trivial⟩
        cases rs with
        | nil =>
          have hvs : vs = [] := List.length_eq_zero.mp (by simpa using hlv)
          subst hvs
          simp [jadd_nan_left, jadd_nan_right, jmul_nan_right, jmul_nan_left, jsub_nan_left]
        | cons r2 rs' =>
          simp [List.replicate_succ, jmul_nan_right, jadd_nan_right]

/-- C9 (amended): `PPOAgent.update` averages the per-agent bootstrap
values as `sum / length` with no emptiness guard, so an empty array gives
`0 / 0 = NaN`; feeding that bootstrap into
`computeReturnsAndAdvantages` makes *every* pre-normalization GAE
advantage NaN, and — when no done flag is set — every Monte-Carlo return
NaN as well; returns at or before the last set done flag are finite,
since the done-reset discards the NaN accumulator (see the
counterexample). -/
theorem C9_nan_bootstrap (gamma lam : JNum)
    (rewards values : List JNum) (dones : List Bool)
    (hlv : values.length = rewards.length)
    (hld : dones.length = rewards.length)
    (hne : rewards ≠ []) :
    averageLastValues [] = JNum.nan ∧
    computeAdvantagesJ gamma lam (averageLastValues []) rewards values dones =
      List.replicate rewards.length JNum.nan ∧
    ((∀ d ∈ dones, d = false) →
      computeReturnsJ gamma (averageLastValues []) rewards dones =
        List.replicate rewards.length JNum.nan) := by
  rw [averageLastValues_nil]
  refine ⟨rfl, computeAdvantagesJ_nan gamma lam rewards values dones hlv hld, ?_⟩
  intro hnodone
  clear hne hlv values
  induction rewards generalizing dones with
  | nil =>
    rw [List.length_nil, List.length_eq_zero] at hld
    subst hld
    rfl
  | cons r rs ih =>
    cases dones with
    | nil => simp at hld
    | cons d ds =>
      simp only [List.length_cons, Nat.add_right_cancel_iff] at hld
      have hd : d = false := hnodone d (List.mem_cons_self d ds)
      have hds : ∀ x ∈ ds, x = false := fun x hx => hnodone x (List.mem_cons_of_mem d hx)
      have htail := ih ds hld hds
      have hhead : (List.replicate rs.length JNum.nan).headD JNum.nan = JNum.nan := by
        cases rs.length <;> simp [List.replicate_succ]
      simp only [computeReturnsJ, htail, hd, List.length_cons, List.replicate_succ,
        List.cons.injEq, Bool.false_eq_true, if_false, hhead, jmul_nan_right,
        jadd_nan_right]

theorem C9_nan_bootstrap_witness :
    computeAdvantagesJ (JNum.num (995/1000)) (JNum.num (95/100)) (averageLastValues [])
      [JNum.num 5] [JNum.num 2] [false] = List.replicate 1 JNum.nan :=
  (C9_nan_bootstrap (JNum.num (995/1000)) (JNum.num (95/100))
    [JNum.num 5] [JNum.num 2] [false] rfl rfl (by simp)).2.1

/-! ## C10: getBatches with never-computed returns throws -/

/-- C10: `clear` (and construction) leaves `returns`/`advantages` as
`null`, `add` never touches them, and if `getBatches` is then called while
the subsampled-and-shuffled indices still yield at least one surviving
batch, the batch construction indexes into the `null` `returns` field and
throws (`Except.error`) instead of returning batches; there is no guard. -/
theorem C10_getBatches_null_returns (b : ExperienceBuffer)
    (batchSize : ℕ) (shuffled : List ℕ)
    (hret : b.returns = none)
    (hnb : batchIndexSets batchSize shuffled ≠ []) :
    ExperienceBuffer.clear.returns = none ∧
    (∀ (b2 : ExperienceBuffer) (st ac : List ℚ) (r v lp : ℚ) (d : Bool),
      (b2.add st ac r v lp d).returns = b2.returns ∧
      (b2.add st ac r v lp d).advantages = b2.advantages) ∧
    b.getBatches batchSize shuffled = Except.error () := by
  refine ⟨rfl, fun b2 st ac r v lp d => ⟨rfl, rfl⟩, ?_⟩
  unfold ExperienceBuffer.getBatches
  rw [hret]
  have hempty : (batchIndexSets batchSize shuffled).isEmpty = false := by
    cases hbi : batchIndexSets batchSize shuffled with
    | nil => exact absurd hbi hnb
    | cons x xs => rfl
  cases b.advantages <;> simp [hempty]

theorem C10_getBatches_null_returns_witness :
    (ExperienceBuffer.clear.add [1] [0] 0 0 0 false).getBatches 1 [0] =
      Except.error () :=
  (C10_getBatches_null_returns (ExperienceBuffer.clear.add [1] [0] 0 0 0 false) 1 [0]
    rfl (by norm_num [batchIndexSets, makeBatches, keepBatch])).2.2

/-! ## C5: advantage normalization -/

theorem foldl_add_map (f : ℚ → ℚ) :
    ∀ (xs : List ℚ) (c : ℚ), xs.foldl (fun a b => a + f b) c = c + (xs.map f).sum := by
  intro xs
  induction xs with
  | nil => intro c; simp
  | cons r rs ih =>
    intro c
    simp only [List.foldl_cons, List.map_cons, List.sum_cons, ih]
    ring

theorem variance_eq (xs : List ℚ) :
    variance xs = ((xs.map (fun b => (b - average xs) ^ 2)).sum) / xs.length := by
  rw [variance, foldl_add_map, zero_add]

theorem sum_map_sub (xs : List ℚ) (m : ℚ) :
    (xs.map (fun a => a - m)).sum = xs.sum - xs.length * m := by
  induction xs with
  | nil => simp
  | cons r rs ih =>
    simp only [List.map_cons, List.sum_cons, ih, List.length_cons]
    push_cast
    ring

theorem length_cast_ne_zero (xs : List ℚ) (h : xs ≠ []) : (xs.length : ℚ) ≠ 0 :=
  Nat.cast_ne_zero.mpr (fun hl => h (List.length_eq_zero.mp hl))

theorem sum_map_div (f : ℚ → ℚ) (c : ℚ) :
    ∀ (xs : List ℚ), (xs.map (fun x => f x / c)).sum = (xs.map f).sum / c := by
  intro xs
  induction xs with
  | nil => simp
  | cons r rs ih => simp only [List.map_cons, List.sum_cons, ih, add_div]

theorem sum_map_sub_average (xs : List ℚ) (h : xs ≠ []) :
    (xs.map (fun a => a - average xs)).sum = 0 := by
  rw [sum_map_sub, average, mul_div_cancel₀ xs.sum (length_cast_ne_zero xs h), sub_self]

theorem normalizeAdvantages_eq_map (s : ℚ) (advs : List ℚ) (h : advs ≠ []) :
    normalizeAdvantages s advs =
      advs.map (fun a => (a - average advs) / (s + 1 / 100000000)) := by
  rw [normalizeAdvantages, if_neg (fun hl => h (List.length_eq_zero.mp hl))]

theorem normalizeAdvantages_average (s : ℚ) (advs : List ℚ) (h : advs ≠ []) :
    average (normalizeAdvantages s advs) = 0 := by
  rw [normalizeAdvantages_eq_map s advs h, average]
  simp only [List.length_map]
  rw [sum_map_div (fun a => a - average advs) (s + 1 / 100000000) advs,
    sum_map_sub_average advs h, zero_div, zero_div]

theorem normalizeAdvantages_variance (s : ℚ) (advs : List ℚ) (h : advs ≠ [])
    (hs2 : s ^ 2 = variance advs) :
    variance (normalizeAdvantages s advs) = (s / (s + 1 / 100000000)) ^ 2 := by
  have hmean := normalizeAdvantages_average s advs h
  rw [variance_eq, hmean, normalizeAdvantages_eq_map s advs h]
  simp only [List.map_map, List.length_map, Function.comp_def, sub_zero, div_pow]
  rw [sum_map_div (fun a => (a - average advs) ^ 2) ((s + 1 / 100000000) ^ 2) advs]
  rw [variance_eq] at hs2
  calc ((advs.map (fun a => (a - average advs) ^ 2)).sum / ((s + 1 / 100000000) ^ 2)) /
        (advs.length : ℚ)
      = ((advs.map (fun a => (a - average advs) ^ 2)).sum / (advs.length : ℚ)) /
        ((s + 1 / 100000000) ^ 2) := by ring
    _ = s ^ 2 / ((s + 1 / 100000000) ^ 2) := by rw [← hs2]

theorem list_sum_nonneg_eq_zero :
    ∀ (l : List ℚ), (∀ x ∈ l, 0 ≤ x) → l.sum = 0 → ∀ x ∈ l, x = 0 := by
  intro l
  induction l with
  | nil => simp
  | cons a l ih =>
    intro hnn hsum x hx
    have ha : 0 ≤ a := hnn a (List.mem_cons_self a l)
    have hl : 0 ≤ l.sum := List.sum_nonneg (fun y hy => hnn y (List.mem_cons_of_mem _ hy))
    have hsum' : a + l.sum = 0 := by simpa using hsum
    rcases List.mem_cons.mp hx with rfl | hx'
    · linarith
    · exact ih (fun y hy => hnn y (List.mem_cons_of_mem _ hy)) (by linarith) x hx'

theorem normalizeAdvantages_degenerate (s : ℚ) (advs : List ℚ) (h : advs ≠ [])
    (h0 : variance advs = 0) :
    normalizeAdvantages s advs = List.replicate advs.length 0 := by
  have hlen := length_cast_ne_zero advs h
  have hsum : (advs.map (fun b => (b - average advs) ^ 2)).sum = 0 := by
    rw [variance_eq] at h0
    rcases div_eq_zero_iff.mp h0 with h1 | h1
    · exact h1
    · exact absurd h1 hlen
  have hall : ∀ a ∈ advs, a = average advs := by
    intro a ha
    have hnn : ∀ x ∈ advs.map (fun b => (b - average advs) ^ 2), 0 ≤ x := by
      intro x hx
      rcases List.mem_map.mp hx with ⟨y, _, hy⟩
      rw [← hy]
      exact sq_nonneg _
    have hz := list_sum_nonneg_eq_zero _ hnn hsum ((a - average advs) ^ 2)
      (List.mem_map_of_mem _ ha)
    have := (pow_eq_zero_iff (two_ne_zero)).mp hz
    linarith [sub_eq_zero.mp this]
  rw [normalizeAdvantages_eq_map s advs h]
  refine List.eq_replicate_iff.mpr ⟨by simp, ?_⟩
  intro x hx
  rcases List.mem_map.mp hx with ⟨y, hy, hxy⟩
  rw [← hxy, hall y hy, sub_self, zero_div]

/-- C5: after `computeReturnsAndAdvantages` on a non-empty buffer the
stored advantage sequence has sample mean `0`, and its sample variance is
`(sigma / (sigma + 1e-8))^2` — i.e. the sample standard deviation is
`sigma / (sigma + 1e-8) ≈ 1` — where `sigma = Math.sqrt` of the
pre-normalization advantage variance (the parameter `s`, characterised by
`0 ≤ s` and `s^2 = variance`); when the pre-normalization advantages all
coincide (zero variance) the epsilon makes the normalization total and
the stored sequence is all zeros, with no special case. -/
theorem C5_advantage_normalization (b : ExperienceBuffer)
    (s lastValue gamma lam : ℚ)
    (hlv : b.values.length = b.rewards.length)
    (hld : b.dones.length = b.rewards.length)
    (hne : b.rewards ≠ [])
    (hs0 : 0 ≤ s)
    (hs2 : s ^ 2 = variance (computeAdvantages gamma lam lastValue b.rewards b.values b.dones)) :
    (b.computeReturnsAndAdvantages s lastValue gamma lam).advantages =
      some (normalizeAdvantages s
        (computeAdvantages gamma lam lastValue b.rewards b.values b.dones)) ∧
    average (normalizeAdvantages s
      (computeAdvantages gamma lam lastValue b.rewards b.values b.dones)) = 0 ∧
    variance (normalizeAdvantages s
      (computeAdvantages gamma lam lastValue b.rewards b.values b.dones)) =
      (s / (s + 1 / 100000000)) ^ 2 ∧
    (variance (computeAdvantages gamma lam lastValue b.rewards b.values b.dones) = 0 →
      normalizeAdvantages s (computeAdvantages gamma lam lastValue b.rewards b.values b.dones) =
        List.replicate
          (computeAdvantages gamma lam lastValue b.rewards b.values b.dones).length 0) := by
  have hAlen : (computeAdvantages gamma lam lastValue b.rewards b.values b.dones).length =
      b.rewards.length := by
    rw [computeAdvantages_length, hlv, hld, min_self, min_self]
  have hAne : computeAdvantages gamma lam lastValue b.rewards b.values b.dones ≠ [] := by
    intro hA
    apply hne
    rw [hA] at hAlen
    exact (List.length_eq_zero.mp hAlen.symm)
  exact ⟨rfl,
    normalizeAdvantages_average s _ hAne,
    normalizeAdvantages_variance s _ hAne hs2,
    fun h0 => normalizeAdvantages_degenerate s _ hAne h0⟩

theorem C5_advantage_normalization_witness :
    average (normalizeAdvantages (1/2)
      (computeAdvantages 0 0 0 [1, 0] [0, 0] [false, false])) = 0 :=
  (C5_advantage_normalization ⟨[], [], [1, 0], [0, 0], [], [false, false], none, none⟩
    (1/2) 0 0 0 rfl rfl (by simp) (by norm_num)
    (by norm_num [computeAdvantages, variance, average])).2.1

/-! ## C6: getBatches produces a disjoint partition with size bounds -/

theorem makeBatches_flatten :
    ∀ (bs : ℕ) (l : List ℕ), 1 ≤ bs → (makeBatches bs l).flatten = l := by
  intro bs l
  induction bs, l using makeBatches.induct with
  | case1 b => intro _; simp [makeBatches]
  | case2 x xs => intro h; omega
  | case3 b x xs ih =>
    intro _
    rw [makeBatches]
    simp only [List.flatten_cons]
    rw [ih (by omega)]
    exact List.take_append_drop (b + 1) (x :: xs)

theorem makeBatches_mem_le :
    ∀ (bs : ℕ) (l : List ℕ) (bi : List ℕ), bi ∈ makeBatches bs l → bi.length ≤ bs := by
  intro bs l
  induction bs, l using makeBatches.induct with
  | case1 b => intro bi h; simp [makeBatches] at h
  | case2 x xs => intro bi h; simp [makeBatches] at h
  | case3 b x xs ih =>
    intro bi h
    rw [makeBatches] at h
    rcases List.mem_cons.mp h with rfl | h2
    · simp only [List.length_take]
      omega
    · exact ih bi h2

theorem subsampleIndices_nodup (n ratio : ℕ) : (subsampleIndices n ratio).Nodup := by
  unfold subsampleIndices
  split
  · exact (List.nodup_range n).filter _
  · exact List.nodup_range n

theorem subsampleIndices_mem (n ratio i : ℕ) (h : i ∈ subsampleIndices n ratio) :
    i < n := by
  unfold subsampleIndices at h
  split at h
  · exact List.mem_range.mp (List.mem_of_mem_filter h)
  · exact List.mem_range.mp h

theorem subsampleIndices_zero (ratio : ℕ) : subsampleIndices 0 ratio = [] := by
  unfold subsampleIndices
  split <;> simp

/-- C6: for every buffer state, `batchSize ≥ 1` and `subsampleRatio ≥ 1`,
and every shuffle outcome (any permutation of the subsampled indices),
the minibatches `getBatches` builds have pairwise disjoint index sets
drawn from the every-Nth-subsampled buffer indices, each of size at most
`batchSize` and at least `batchSize / 2` (a smaller trailing chunk is
dropped by the filter, never returned); on an empty buffer `getBatches`
returns zero batches. -/
theorem C6_getBatches_partition (b : ExperienceBuffer) (batchSize ratio : ℕ)
    (shuffled : List ℕ)
    (hbs : 1 ≤ batchSize) (hratio : 1 ≤ ratio)
    (hperm : shuffled.Perm (subsampleIndices b.length ratio)) :
    (∀ bi ∈ batchIndexSets batchSize shuffled, ∀ i ∈ bi,
      i ∈ subsampleIndices b.length ratio) ∧
    List.Pairwise List.Disjoint (batchIndexSets batchSize shuffled) ∧
    (∀ bi ∈ batchIndexSets batchSize shuffled,
      bi.length ≤ batchSize ∧ (batchSize : ℚ) / 2 ≤ (bi.length : ℚ)) ∧
    (b.length = 0 → b.getBatches batchSize shuffled = Except.ok []) := by
  have hflat : (makeBatches batchSize shuffled).flatten = shuffled :=
    makeBatches_flatten batchSize shuffled hbs
  have hnodup : shuffled.Nodup :=
    hperm.nodup_iff.mpr (subsampleIndices_nodup b.length ratio)
  have hnfl : (makeBatches batchSize shuffled).flatten.Nodup := by
    rw [hflat]; exact hnodup
  have hpw := (List.nodup_flatten.mp hnfl).2
  refine ⟨?_, ?_, ?_, ?_⟩
  · intro bi hbi i hi
    have hmem : bi ∈ makeBatches batchSize shuffled :=
      (List.mem_filter.mp hbi).1
    have : i ∈ shuffled := by
      rw [← hflat]
      exact List.mem_flatten.mpr ⟨bi, hmem, hi⟩
    exact hperm.mem_iff.mp this
  · exact List.Pairwise.sublist (List.filter_sublist _) hpw
  · intro bi hbi
    rcases List.mem_filter.mp hbi with ⟨hmem, hkeep⟩
    refine ⟨makeBatches_mem_le batchSize shuffled bi hmem, ?_⟩
    unfold keepBatch at hkeep
    rw [Bool.not_eq_eq_eq_not, Bool.not_true, decide_eq_false_iff_not, not_lt] at hkeep
    exact hkeep
  · intro h0
    rw [h0, subsampleIndices_zero] at hperm
    have hs : shuffled = [] := hperm.eq_nil
    subst hs
    have hmb : makeBatches batchSize ([] : List ℕ) = [] := by
      simp [makeBatches]
    unfold ExperienceBuffer.getBatches
    rw [batchIndexSets, hmb]
    rfl

theorem C6_getBatches_partition_witness :
    ExperienceBuffer.clear.getBatches 2 [] = Except.ok [] :=
  (C6_getBatches_partition ExperienceBuffer.clear 2 1 [] (by omega) (by omega)
    (by simp [subsampleIndices, ExperienceBuffer.clear, ExperienceBuffer.length])).2.2.2 rfl

/-! ## C4: done=true at index k severs influence of later transitions -/

theorem take_len_ge {α : Type} (l1 l2 : List α) (k : ℕ)
    (h : l1.take (k + 1) = l2.take (k + 1)) (hk : k < l1.length) : k < l2.length := by
  have := congrArg List.length h
  simp only [List.length_take] at this
  omega

theorem computeReturns_take_severed (gamma lv1 lv2 : ℚ) :
    ∀ (k : ℕ) (rw1 rw2 : List ℚ) (dn1 dn2 : List Bool),
      dn1.length = rw1.length → dn2.length = rw2.length →
      rw1.take (k + 1) = rw2.take (k + 1) →
      dn1.take (k + 1) = dn2.take (k + 1) →
      dn1.getD k false = true →
      (computeReturns gamma lv1 rw1 dn1).take (k + 1) =
        (computeReturns gamma lv2 rw2 dn2).take (k + 1) := by
  intro k
  induction k with
  | zero =>
    intro rw1 rw2 dn1 dn2 hl1 hl2 hr hd hdk
    cases dn1 with
    | nil => simp at hdk
    | cons d1 ds1 =>
      have hd1 : d1 = true := by simpa using hdk
      cases rw1 with
      | nil => simp at hl1
      | cons r1 rs1 =>
        cases dn2 with
        | nil => simp at hd
        | cons d2 ds2 =>
          cases rw2 with
          | nil => simp at hr
          | cons r2 rs2 =>
            simp only [List.take_succ_cons, List.take_zero, List.cons.injEq,
              and_true] at hr hd
            subst hd1
            rw [← hd] at *
            rw [← hr]
            simp [computeReturns]
  | succ k ih =>
    intro rw1 rw2 dn1 dn2 hl1 hl2 hr hd hdk
    cases dn1 with
    | nil => simp at hdk
    | cons d1 ds1 =>
      cases rw1 with
      | nil => simp at hl1
      | cons r1 rs1 =>
        cases dn2 with
        | nil => simp at hd
        | cons d2 ds2 =>
          cases rw2 with
          | nil => simp at hl2
          | cons r2 rs2 =>
            simp only [List.take_succ_cons, List.cons.injEq] at hr hd
            obtain ⟨hrh, hrt⟩ := hr
            obtain ⟨hdh, hdt⟩ := hd
            simp only [List.length_cons, Nat.add_right_cancel_iff] at hl1 hl2
            have hdk' : ds1.getD k false = true := by simpa using hdk
            have htail := ih rs1 rs2 ds1 ds2 hl1 hl2 hrt hdt hdk'
            have hk1 : k < ds1.length := getD_true_lt ds1 k hdk'
            have hk2 : k < ds2.length := take_len_ge ds1 ds2 k hdt hk1
            simp only [computeReturns, List.take_succ_cons, List.cons.injEq]
            refine ⟨?_, htail⟩
            subst hrh
            subst hdh
            by_cases hb : d1
            · simp [hb]
            · simp only [hb, Bool.false_eq_true, if_false]
              rcases ht1 : computeReturns gamma lv1 rs1 ds1 with _ | ⟨a1, t1⟩
              · exfalso
                have := computeReturns_length gamma lv1 rs1 ds1
                rw [ht1] at this
                simp at this
                omega
              · rcases ht2 : computeReturns gamma lv2 rs2 ds2 with _ | ⟨a2, t2⟩
                · exfalso
                  have := computeReturns_length gamma lv2 rs2 ds2
                  rw [ht2] at this
                  simp at this
                  omega
                · rw [ht1, ht2] at htail
                  simp only [List.take_succ_cons, List.cons.injEq] at htail
                  rw [htail.1]
                  rfl

theorem computeAdvantages_take_severed (gamma lam lv1 lv2 : ℚ) :
    ∀ (k : ℕ) (rw1 rw2 vl1 vl2 : List ℚ) (dn1 dn2 : List Bool),
      vl1.length = rw1.length → vl2.length = rw2.length →
      dn1.length = rw1.length → dn2.length = rw2.length →
      rw1.take (k + 1) = rw2.take (k + 1) →
      vl1.take (k + 1) = vl2.take (k + 1) →
      dn1.take (k + 1) = dn2.take (k + 1) →
      dn1.getD k false = true →
      (computeAdvantages gamma lam lv1 rw1 vl1 dn1).take (k + 1) =
        (computeAdvantages gamma lam lv2 rw2 vl2 dn2).take (k + 1) := by
  intro k
  induction k with
  | zero =>
    intro rw1 rw2 vl1 vl2 dn1 dn2 hv1 hv2 hl1 hl2 hr hv hd hdk
    cases dn1 with
    | nil => simp at hdk
    | cons d1 ds1 =>
      have hd1 : d1 = true := by simpa using hdk
      cases rw1 with
      | nil => simp at hl1
      | cons r1 rs1 =>
        cases vl1 with
        | nil => simp at hv1
        | cons v1 vs1 =>
          cases dn2 with
          | nil => simp at hd
          | cons d2 ds2 =>
            cases rw2 with
            | nil => simp at hr
            | cons r2 rs2 =>
              cases vl2 with
              | nil => simp at hv2
              | cons v2 vs2 =>
                simp only [List.take_succ_cons, List.take_zero, List.cons.injEq,
                  and_true] at hr hv hd
                subst hd1
                rw [← hd] at *
                rw [← hr, ← hv]
                simp only [computeAdvantages, List.take_succ_cons, List.take_zero,
                  List.cons.injEq, and_true, if_true]
                ring
  | succ k ih =>
    intro rw1 rw2 vl1 vl2 dn1 dn2 hv1 hv2 hl1 hl2 hr hv hd hdk
    cases dn1 with
    | nil => simp at hdk
    | cons d1 ds1 =>
      cases rw1 with
      | nil => simp at hl1
      | cons r1 rs1 =>
        cases vl1 with
        | nil => simp at hv1
        | cons v1 vs1 =>
          cases dn2 with
          | nil => simp at hd
          | cons d2 ds2 =>
            cases rw2 with
            | nil => simp at hl2
            | cons r2 rs2 =>
              cases vl2 with
              | nil => simp at hv2
              | cons v2 vs2 =>
                simp only [List.take_succ_cons, List.cons.injEq] at hr hv hd
                obtain ⟨hrh, hrt⟩ := hr
                obtain ⟨hvh, hvt⟩ := hv
                obtain ⟨hdh, hdt⟩ := hd
                simp only [List.length_cons, Nat.add_right_cancel_iff] at hv1 hv2 hl1 hl2
                have hdk' : ds1.getD k false = true := by simpa using hdk
                have htail := ih rs1 rs2 vs1 vs2 ds1 ds2 hv1 hv2 hl1 hl2 hrt hvt hdt hdk'
                have hk1 : k < ds1.length := getD_true_lt ds1 k hdk'
                have hk2 : k < ds2.length := take_len_ge ds1 ds2 k hdt hk1
                simp only [computeAdvantages, List.take_succ_cons, List.cons.injEq]
                refine ⟨?_, htail⟩
                subst hrh
                subst hdh
                subst hvh
                by_cases hb : d1
                · simp only [hb, if_true]
                  ring
                · simp only [hb, Bool.false_eq_true, if_false]
                  cases vs1 with
                  | nil =>
                    simp only [List.length_nil] at hv1
                    omega
                  | cons w1 ws1 =>
                    cases vs2 with
                    | nil =>
                      simp only [List.length_nil] at hv2
                      omega
                    | cons w2 ws2 =>
                      simp only [List.take_succ_cons, List.cons.injEq] at hvt
                      rcases ht1 : computeAdvantages gamma lam lv1 rs1 (w1 :: ws1) ds1
                          with _ | ⟨a1, t1⟩
                      · exfalso
                        have := computeAdvantages_length gamma lam lv1 rs1 (w1 :: ws1) ds1
                        rw [ht1] at this
                        simp at this
                        omega
                      · rcases ht2 : computeAdvantages gamma lam lv2 rs2 (w2 :: ws2) ds2
                            with _ | ⟨a2, t2⟩
                        · exfalso
                          have := computeAdvantages_length gamma lam lv2 rs2 (w2 :: ws2) ds2
                          rw [ht2] at this
                          simp at this
                          omega
                        · rw [ht1, ht2] at htail
                          simp only [List.take_succ_cons, List.cons.injEq] at htail
                          rw [htail.1, hvt.1]
                          rfl

/-- C4: two buffers that agree on the transitions at indices `0..k` (the
reward, value and done entries — the only per-step fields the
return/advantage computation reads) and have `done = true` at index `k`
get identical returns and identical pre-normalization GAE advantages at
every index `t ≤ k`, for every discount `gamma` and GAE `lambda` and for
arbitrary, even different, bootstrap values in the two runs — however the
transitions after index `k` differ. -/
theorem C4_episode_boundary_severance (gamma lam lv1 lv2 : ℚ) (k : ℕ)
    (b1 b2 : ExperienceBuffer)
    (hv1 : b1.values.length = b1.rewards.length)
    (hv2 : b2.values.length = b2.rewards.length)
    (hd1 : b1.dones.length = b1.rewards.length)
    (hd2 : b2.dones.length = b2.rewards.length)
    (hr : b1.rewards.take (k + 1) = b2.rewards.take (k + 1))
    (hv : b1.values.take (k + 1) = b2.values.take (k + 1))
    (hd : b1.dones.take (k + 1) = b2.dones.take (k + 1))
    (hdk : b1.dones.getD k false = true) :
    (computeReturns gamma lv1 b1.rewards b1.dones).take (k + 1) =
      (computeReturns gamma lv2 b2.rewards b2.dones).take (k + 1) ∧
    (computeAdvantages gamma lam lv1 b1.rewards b1.values b1.dones).take (k + 1) =
      (computeAdvantages gamma lam lv2 b2.rewards b2.values b2.dones).take (k + 1) :=
  ⟨computeReturns_take_severed gamma lv1 lv2 k _ _ _ _ hd1 hd2 hr hd hdk,
   computeAdvantages_take_severed gamma lam lv1 lv2 k _ _ _ _ _ _
     hv1 hv2 hd1 hd2 hr hv hd hdk⟩

theorem C4_episode_boundary_severance_witness :
    (computeReturns (1/2) 3 [1, 2, 100] [false, true, false]).take 2 =
      (computeReturns (1/2) 4 [1, 2, 7] [false, true, true]).take 2 :=
  (C4_episode_boundary_severance (1/2) (9/10) 3 4 1
    ⟨[], [], [1, 2, 100], [5, 6, 100], [], [false, true, false], none, none⟩
    ⟨[], [], [1, 2, 7], [5, 6, 8], [], [false, true, true], none, none⟩
    rfl rfl rfl rfl rfl rfl rfl rfl).1
